import Mathlib

/-!
Shallow embedding of the custom dependency-injection container of this
repository (`DIContainer` with `registerType`, `registerTypeWithDependencies`
and `resolve`, backed by a `std::map` from `typeid(T).name()` strings to
type-erased factory closures), together with proofs of the specified
registration/resolution properties.

Modelling choices, each mirroring the source:
* A `TypeKey` is the string produced by `typeid(T).name()`.
* The registry `creators_` is a finite map from `TypeKey` to the installed
  factory; we represent it as an association list where insertion erases the
  previous binding, the exact map abstraction of `creators_[key] = ...`.
* A factory is either the `registerType` closure (default-construct) or the
  `registerTypeWithDependencies` closure (resolve each declared dependency
  recursively, then construct from the results).
* Heap allocation is modelled by a counter threaded through resolution: every
  constructed object receives a fresh identity `id`, so distinctness of
  `shared_ptr` targets becomes distinctness of ids.
* The C++ `resolve` recurses without bound on cyclic dependency graphs; the
  embedding makes the recursion depth explicit with a fuel parameter, and a
  run that exhausts every fuel corresponds to the non-terminating execution.
* `throw std::runtime_error("Type not registered...")` is the single error
  outcome `DIError.unregisteredType`.
-/

namespace DI

/-- The key under which a factory is stored: the `typeid(T).name()` string. -/
abbrev TypeKey := String

/-- The two kinds of factory closure the container ever stores:
`registerType<T>` installs a dependency-free default construction, and
`registerTypeWithDependencies<T, Args...>` installs a closure remembering the
declared dependency list `Args...`. -/
inductive Factory where
  | simple : Factory
  | withDeps (deps : List TypeKey) : Factory
deriving DecidableEq

/-- The `creators_` map: at most one factory per key, keyed by `TypeKey`. -/
abbrev Registry := List (TypeKey × Factory)

/-- `creators_.find(key)`: the factory currently stored for `k`, if any. -/
def lookupFactory : Registry → TypeKey → Option Factory
  | [], _ => none
  | (k', f) :: rest, k => if k = k' then some f else lookupFactory rest k

/-- Erase every binding of key `k` (a map holds at most one, so this is the
map-update's removal of the previous binding). -/
def removeKey : Registry → TypeKey → Registry
  | [], _ => []
  | (k', f) :: rest, k =>
    if k = k' then removeKey rest k else (k', f) :: removeKey rest k

/-- `creators_[k] = f`: store `f` under `k`, replacing any previous binding. -/
def insertFactory (reg : Registry) (k : TypeKey) (f : Factory) : Registry :=
  (k, f) :: removeKey reg k

/-- `DIContainer::registerType<T>()`. -/
def registerType (reg : Registry) (k : TypeKey) : Registry :=
  insertFactory reg k Factory.simple

/-- `DIContainer::registerTypeWithDependencies<T, Args...>()`. -/
def registerTypeWithDependencies (reg : Registry) (k : TypeKey)
    (deps : List TypeKey) : Registry :=
  insertFactory reg k (Factory.withDeps deps)

/-- A constructed object: its dynamic type's key, its heap identity, and the
dependency instances passed to its constructor, in constructor-argument
order. -/
structure Instance where
  key : TypeKey
  id : Nat
  deps : List Instance

/-- The single error the container signals:
`throw std::runtime_error("Type not registered in DI container.")`. -/
inductive DIError where
  | unregisteredType
deriving DecidableEq

/-- Outcome of a resolution run carrying the allocation counter: a value
together with the next fresh id, a thrown error, or fuel exhaustion (the
marker for a run of the unbounded C++ recursion deeper than the fuel). -/
inductive ResolveResult (α : Type) where
  | ok (value : α) (ctr : Nat) : ResolveResult α
  | err (e : DIError) : ResolveResult α
  | diverge : ResolveResult α

/-- Resolve a dependency list left to right with the given resolver,
threading the allocation counter, propagating the first error. This is the
argument-pack expansion `resolve<Args>()...` inside the stored closure. -/
def resolveDepsWith (res : TypeKey → Nat → ResolveResult Instance) :
    List TypeKey → Nat → ResolveResult (List Instance)
  | [], ctr => .ok [] ctr
  | d :: rest, ctr =>
    match res d ctr with
    | .ok inst ctr1 =>
      match resolveDepsWith res rest ctr1 with
      | .ok insts ctr2 => .ok (inst :: insts) ctr2
      | .err e => .err e
      | .diverge => .diverge
    | .err e => .err e
    | .diverge => .diverge

/-- `DIContainer::resolve<T>()`, with the recursion depth made explicit:
look the key up in `creators_`; if absent, throw; otherwise invoke the stored
factory, which for a `withDeps` registration first resolves each declared
dependency recursively and then constructs the object from the results. -/
def resolveFuel (reg : Registry) : Nat → TypeKey → Nat → ResolveResult Instance
  | fuel, k, ctr =>
    match lookupFactory reg k, fuel with
    | none, _ => .err .unregisteredType
    | some .simple, _ => .ok ⟨k, ctr, []⟩ (ctr + 1)
    | some (.withDeps _), 0 => .diverge
    | some (.withDeps D), fuel' + 1 =>
      match resolveDepsWith (resolveFuel reg fuel') D ctr with
      | .ok insts ctr1 => .ok ⟨k, ctr1, insts⟩ (ctr1 + 1)
      | .err e => .err e
      | .diverge => .diverge

/-! ### Derived notions: outcome shapes, registration closure, the
dependency graph, reachable registries, and the concrete program -/

/-- The observable outcome kind of a resolution run. -/
inductive RShape where
  | okS : RShape
  | errS (e : DIError) : RShape
  | divergeS : RShape
deriving DecidableEq

/-- Forget a result's value and counter, keeping only its outcome kind. -/
def ResolveResult.shape {α : Type} : ResolveResult α → RShape
  | .ok _ _ => .okS
  | .err e => .errS e
  | .diverge => .divergeS

/-- Key `k` is (directly or transitively) registered: a factory is stored for
it, and every dependency declared by that factory is transitively registered
in turn. -/
inductive TransitivelyRegistered (reg : Registry) : TypeKey → Prop where
  | simple {k : TypeKey} (h : lookupFactory reg k = some Factory.simple) :
      TransitivelyRegistered reg k
  | withDeps {k : TypeKey} {D : List TypeKey}
      (h : lookupFactory reg k = some (Factory.withDeps D))
      (hD : ∀ d ∈ D, TransitivelyRegistered reg d) :
      TransitivelyRegistered reg k

/-- `resolve` for `k` returns successfully at some recursion depth. -/
def Resolvable (reg : Registry) (k : TypeKey) : Prop :=
  ∃ fuel, (resolveFuel reg fuel k 0).shape = RShape.okS

/-- `a` declares a dependency on `b`: the factory stored for `a` is a
`withDeps` closure whose declared dependency list contains `b`. -/
def DepEdge (reg : Registry) (a b : TypeKey) : Prop :=
  ∃ D, lookupFactory reg a = some (Factory.withDeps D) ∧ b ∈ D

/-- `b` is reachable from `a` along declared dependency edges. -/
def Reachable (reg : Registry) (a b : TypeKey) : Prop :=
  Relation.ReflTransGen (DepEdge reg) a b

/-- Some type lying on a dependency cycle is reachable from `k`. Every node
on such a cycle is an edge source, hence carries a registered `withDeps`
factory: the cycle is among registered types. -/
def HasCycleFrom (reg : Registry) (k : TypeKey) : Prop :=
  ∃ c, Reachable reg k c ∧ Relation.TransGen (DepEdge reg) c c

/-- No infinite dependency chain starts at `k`: the recursion of `resolve`
out of `k` is well-founded. On the finite registry this is exactly "the
registered dependency graph reachable from `k` is acyclic". -/
def DepAcc (reg : Registry) (k : TypeKey) : Prop :=
  Acc (fun b a => DepEdge reg a b) k

/-- Registries producible from the empty container by any sequence of
`registerType` and `registerTypeWithDependencies` calls. -/
inductive Built : Registry → Prop where
  | empty : Built []
  | simpleStep {reg : Registry} {k : TypeKey} (h : Built reg) :
      Built (registerType reg k)
  | depsStep {reg : Registry} {k : TypeKey} {D : List TypeKey} (h : Built reg) :
      Built (registerTypeWithDependencies reg k D)

/-- The C++ class types of this program, the arguments of `typeid`. -/
inductive CppType where
  | logger : CppType
  | model : CppType
  | view : CppType
  | configuration : CppType
  | controller : CppType
deriving DecidableEq

/-- The `typeid(T).name()` key of each program type: one fixed string per
type, distinct strings for distinct types. -/
def typeName : CppType → TypeKey
  | CppType.logger => "Logger"
  | CppType.model => "Model"
  | CppType.view => "View"
  | CppType.configuration => "Configuration"
  | CppType.controller => "Controller"

/-- The registry built by `main`: Logger, Model, View and Configuration via
`registerType`, then Controller with dependencies Model, View, Logger via
`registerTypeWithDependencies`. -/
def mainRegistry : Registry :=
  registerTypeWithDependencies
    (registerType
      (registerType
        (registerType
          (registerType [] (typeName CppType.logger))
          (typeName CppType.model))
        (typeName CppType.view))
      (typeName CppType.configuration))
    (typeName CppType.controller)
    [typeName CppType.model, typeName CppType.view, typeName CppType.logger]

instance : Fintype CppType :=
  ⟨⟨{CppType.logger, CppType.model, CppType.view, CppType.configuration,
     CppType.controller}, by decide⟩, by intro x; cases x <;> decide⟩

/-- The spec's failure scenario: Model and View registered, Controller
registered with dependencies Model, View, Logger, but Logger never
registered. -/
def missingLoggerRegistry : Registry :=
  registerTypeWithDependencies
    (registerType (registerType [] (typeName CppType.model))
      (typeName CppType.view))
    (typeName CppType.controller)
    [typeName CppType.model, typeName CppType.view, typeName CppType.logger]

/-- A one-type registry whose single registration depends on itself: the
smallest dependency cycle among registered types. -/
def selfLoopRegistry : Registry :=
  registerTypeWithDependencies [] "A" ["A"]

/-- The Controller object constructed by `main`'s final resolve call, with
the allocation identities its run produces: dependencies Model, View, Logger
allocated at 4, 5, 6, the Controller itself at 7. -/
def mainControllerInstance : Instance :=
  ⟨typeName CppType.controller, 7,
    [⟨typeName CppType.model, 4, []⟩, ⟨typeName CppType.view, 5, []⟩,
     ⟨typeName CppType.logger, 6, []⟩]⟩

/-! ### Basic lemmas about the registry map -/

theorem lookupFactory_removeKey (reg : Registry) (k k' : TypeKey) :
    lookupFactory (removeKey reg k) k' =
      if k' = k then none else lookupFactory reg k' := by
  induction reg with
  | nil => simp [removeKey, lookupFactory]
  | cons p rest ih =>
    obtain ⟨k0, f0⟩ := p
    by_cases h1 : k = k0
    · subst h1
      by_cases h2 : k' = k
      · subst h2; simp [removeKey, lookupFactory, ih]
      · simp [removeKey, lookupFactory, h2, ih]
    · by_cases h2 : k' = k0
      · subst h2
        have h3 : ¬k' = k := fun he => h1 he.symm
        simp [removeKey, lookupFactory, h1, h3]
      · simp [removeKey, lookupFactory, h1, h2, ih]

theorem lookupFactory_insert_self (reg : Registry) (k : TypeKey) (f : Factory) :
    lookupFactory (insertFactory reg k f) k = some f := by
  simp [insertFactory, lookupFactory]

theorem lookupFactory_insert_ne (reg : Registry) (k : TypeKey) (f : Factory)
    (k' : TypeKey) (h : k' ≠ k) :
    lookupFactory (insertFactory reg k f) k' = lookupFactory reg k' := by
  simp [insertFactory, lookupFactory, h, lookupFactory_removeKey]

/-! ### Unfolding lemmas for the resolver -/

theorem resolveFuel_lookup_none {reg : Registry} {k : TypeKey}
    (h : lookupFactory reg k = none) (fuel ctr : Nat) :
    resolveFuel reg fuel k ctr = ResolveResult.err DIError.unregisteredType := by
  unfold resolveFuel
  rw [h]

theorem resolveFuel_lookup_simple {reg : Registry} {k : TypeKey}
    (h : lookupFactory reg k = some Factory.simple) (fuel ctr : Nat) :
    resolveFuel reg fuel k ctr = ResolveResult.ok ⟨k, ctr, []⟩ (ctr + 1) := by
  unfold resolveFuel
  rw [h]

theorem resolveFuel_lookup_withDeps_zero {reg : Registry} {k : TypeKey}
    {D : List TypeKey} (h : lookupFactory reg k = some (Factory.withDeps D))
    (ctr : Nat) :
    resolveFuel reg 0 k ctr = ResolveResult.diverge := by
  unfold resolveFuel
  rw [h]

theorem resolveFuel_lookup_withDeps_succ {reg : Registry} {k : TypeKey}
    {D : List TypeKey} (h : lookupFactory reg k = some (Factory.withDeps D))
    (fuel ctr : Nat) :
    resolveFuel reg (fuel + 1) k ctr =
      match resolveDepsWith (resolveFuel reg fuel) D ctr with
      | .ok insts ctr1 => .ok ⟨k, ctr1, insts⟩ (ctr1 + 1)
      | .err e => .err e
      | .diverge => .diverge := by
  conv =>
    lhs
    unfold resolveFuel
  rw [h]

/-! ### The shape of a result (outcome kind, ignoring values and counters) -/

theorem resolveDepsWith_shape_ctr (res : TypeKey → Nat → ResolveResult Instance)
    (hres : ∀ d c1 c2, (res d c1).shape = (res d c2).shape) :
    ∀ (D : List TypeKey) (c1 c2 : Nat),
      (resolveDepsWith res D c1).shape = (resolveDepsWith res D c2).shape := by
  intro D
  induction D with
  | nil => intro c1 c2; rfl
  | cons d rest ih =>
    intro c1 c2
    have hd := hres d c1 c2
    cases h1 : res d c1 <;> cases h2 : res d c2 <;>
      rw [h1, h2] at hd <;>
      simp only [ResolveResult.shape, resolveDepsWith, h1, h2] at hd ⊢
    case ok.ok i1 c1' i2 c2' =>
      have hrest := ih c1' c2'
      cases h3 : resolveDepsWith res rest c1' <;>
        cases h4 : resolveDepsWith res rest c2' <;>
        rw [h3, h4] at hrest <;>
        simp_all [ResolveResult.shape]
    all_goals simp_all [ResolveResult.shape]

theorem resolveFuel_shape_ctr (fuel : Nat) (reg : Registry) (k : TypeKey)
    (c1 c2 : Nat) :
    (resolveFuel reg fuel k c1).shape = (resolveFuel reg fuel k c2).shape := by
  induction fuel generalizing reg k c1 c2 with
  | zero =>
    cases h : lookupFactory reg k with
    | none => rw [resolveFuel_lookup_none h, resolveFuel_lookup_none h]
    | some f =>
      cases f with
      | simple => rw [resolveFuel_lookup_simple h, resolveFuel_lookup_simple h]; rfl
      | withDeps D =>
        rw [resolveFuel_lookup_withDeps_zero h, resolveFuel_lookup_withDeps_zero h]
  | succ fuel ih =>
    cases h : lookupFactory reg k with
    | none => rw [resolveFuel_lookup_none h, resolveFuel_lookup_none h]
    | some f =>
      cases f with
      | simple => rw [resolveFuel_lookup_simple h, resolveFuel_lookup_simple h]; rfl
      | withDeps D =>
        rw [resolveFuel_lookup_withDeps_succ h, resolveFuel_lookup_withDeps_succ h]
        have hsh := resolveDepsWith_shape_ctr (resolveFuel reg fuel)
          (fun d a b => ih reg d a b) D c1 c2
        cases h3 : resolveDepsWith (resolveFuel reg fuel) D c1 <;>
          cases h4 : resolveDepsWith (resolveFuel reg fuel) D c2 <;>
          rw [h3, h4] at hsh <;> simp_all [ResolveResult.shape]

/-! ### Fuel monotonicity -/

theorem resolveDepsWith_mono (res res' : TypeKey → Nat → ResolveResult Instance)
    (hres : ∀ d c, (res d c).shape ≠ RShape.divergeS → res' d c = res d c) :
    ∀ (D : List TypeKey) (c : Nat),
      (resolveDepsWith res D c).shape ≠ RShape.divergeS →
      resolveDepsWith res' D c = resolveDepsWith res D c := by
  intro D
  induction D with
  | nil => intro c _; rfl
  | cons d rest ih =>
    intro c hnd
    cases h1 : res d c with
    | ok i c1 =>
      have hd : res' d c = res d c := hres d c (by rw [h1]; simp [ResolveResult.shape])
      cases h2 : resolveDepsWith res rest c1 with
      | ok is c2 =>
        have hrest := ih c1 (by rw [h2]; simp [ResolveResult.shape])
        simp [resolveDepsWith, hd, h1, hrest, h2]
      | err e =>
        have hrest := ih c1 (by rw [h2]; simp [ResolveResult.shape])
        simp [resolveDepsWith, hd, h1, hrest, h2]
      | diverge =>
        exfalso
        exact hnd (by simp [resolveDepsWith, h1, h2, ResolveResult.shape])
    | err e =>
      have hd : res' d c = res d c := hres d c (by rw [h1]; simp [ResolveResult.shape])
      simp [resolveDepsWith, hd, h1]
    | diverge =>
      exfalso
      exact hnd (by simp [resolveDepsWith, h1, ResolveResult.shape])

theorem resolveFuel_mono {fuel fuel' : Nat} (hle : fuel ≤ fuel') (reg : Registry) :
    ∀ (k : TypeKey) (c : Nat),
      (resolveFuel reg fuel k c).shape ≠ RShape.divergeS →
      resolveFuel reg fuel' k c = resolveFuel reg fuel k c := by
  induction fuel generalizing fuel' with
  | zero =>
    intro k c hnd
    cases h : lookupFactory reg k with
    | none => rw [resolveFuel_lookup_none h, resolveFuel_lookup_none h]
    | some f =>
      cases f with
      | simple => rw [resolveFuel_lookup_simple h, resolveFuel_lookup_simple h]
      | withDeps D =>
        exact absurd (by rw [resolveFuel_lookup_withDeps_zero h]; rfl) hnd
  | succ fuel ih =>
    intro k c hnd
    obtain ⟨fuel2, rfl⟩ : ∃ m, fuel' = m + 1 := ⟨fuel' - 1, by omega⟩
    have hle' : fuel ≤ fuel2 := by omega
    cases h : lookupFactory reg k with
    | none => rw [resolveFuel_lookup_none h, resolveFuel_lookup_none h]
    | some f =>
      cases f with
      | simple => rw [resolveFuel_lookup_simple h, resolveFuel_lookup_simple h]
      | withDeps D =>
        rw [resolveFuel_lookup_withDeps_succ h] at hnd ⊢
        rw [resolveFuel_lookup_withDeps_succ h]
        have hdeps : (resolveDepsWith (resolveFuel reg fuel) D c).shape ≠
            RShape.divergeS := by
          cases h2 : resolveDepsWith (resolveFuel reg fuel) D c with
          | ok is c2 => simp [ResolveResult.shape]
          | err e => simp [ResolveResult.shape]
          | diverge => exact absurd (by rw [h2]; rfl) hnd
        rw [resolveDepsWith_mono (resolveFuel reg fuel) (resolveFuel reg fuel2)
          (fun d cc hh => ih hle' d cc hh) D c hdeps]

/-! ### Transitive registration and resolvability -/

theorem resolveDepsWith_ok_elem (res : TypeKey → Nat → ResolveResult Instance) :
    ∀ (D : List TypeKey) (c : Nat) (is : List Instance) (c' : Nat),
      resolveDepsWith res D c = ResolveResult.ok is c' →
      ∀ d ∈ D, ∃ c1 i c2, res d c1 = ResolveResult.ok i c2 := by
  intro D
  induction D with
  | nil => intro c is c' _ d hd; cases hd
  | cons d0 rest ih =>
    intro c is c' heq d hd
    cases h1 : res d0 c with
    | ok i c1 =>
      cases h2 : resolveDepsWith res rest c1 with
      | ok is2 c2 =>
        rcases List.mem_cons.mp hd with rfl | hmem
        · exact ⟨c, i, c1, h1⟩
        · exact ih c1 is2 c2 h2 d hmem
      | err e => simp [resolveDepsWith, h1, h2] at heq
      | diverge => simp [resolveDepsWith, h1, h2] at heq
    | err e => simp [resolveDepsWith, h1] at heq
    | diverge => simp [resolveDepsWith, h1] at heq

theorem resolveFuel_ok_transReg :
    ∀ (fuel : Nat) (reg : Registry) (k : TypeKey) (c : Nat) (i : Instance)
      (c' : Nat), resolveFuel reg fuel k c = ResolveResult.ok i c' →
      TransitivelyRegistered reg k := by
  intro fuel
  induction fuel with
  | zero =>
    intro reg k c i c' heq
    cases h : lookupFactory reg k with
    | none => rw [resolveFuel_lookup_none h] at heq; cases heq
    | some f =>
      cases f with
      | simple => exact TransitivelyRegistered.simple h
      | withDeps D => rw [resolveFuel_lookup_withDeps_zero h] at heq; cases heq
  | succ fuel ih =>
    intro reg k c i c' heq
    cases h : lookupFactory reg k with
    | none => rw [resolveFuel_lookup_none h] at heq; cases heq
    | some f =>
      cases f with
      | simple => exact TransitivelyRegistered.simple h
      | withDeps D =>
        rw [resolveFuel_lookup_withDeps_succ h] at heq
        cases h2 : resolveDepsWith (resolveFuel reg fuel) D c with
        | ok is c2 =>
          refine TransitivelyRegistered.withDeps h ?_
          intro d hd
          obtain ⟨c1, i1, c2', hok⟩ :=
            resolveDepsWith_ok_elem (resolveFuel reg fuel) D c is c2 h2 d hd
          exact ih reg d c1 i1 c2' hok
        | err e => rw [h2] at heq; cases heq
        | diverge => rw [h2] at heq; cases heq

theorem exists_uniform_fuel (reg : Registry) :
    ∀ (D : List TypeKey),
      (∀ d ∈ D, ∃ fuel, ∀ c, (resolveFuel reg fuel d c).shape = RShape.okS) →
      ∃ F, ∀ d ∈ D, ∀ c, (resolveFuel reg F d c).shape = RShape.okS := by
  intro D
  induction D with
  | nil => intro _; exact ⟨0, fun d hd => absurd hd (List.not_mem_nil d)⟩
  | cons d0 rest ih =>
    intro h
    obtain ⟨f0, hf0⟩ := h d0 (List.mem_cons_self d0 rest)
    obtain ⟨F, hF⟩ := ih (fun d hd => h d (List.mem_cons_of_mem d0 hd))
    refine ⟨max f0 F, ?_⟩
    intro d hd c
    rcases List.mem_cons.mp hd with rfl | hmem
    · rw [resolveFuel_mono (Nat.le_max_left f0 F) reg d c
        (by rw [hf0 c]; intro hx; cases hx)]
      exact hf0 c
    · rw [resolveFuel_mono (Nat.le_max_right f0 F) reg d c
        (by rw [hF d hmem c]; intro hx; cases hx)]
      exact hF d hmem c

theorem resolveDepsWith_all_ok (res : TypeKey → Nat → ResolveResult Instance)
    (D : List TypeKey) (h : ∀ d ∈ D, ∀ c, (res d c).shape = RShape.okS) :
    ∀ c, ∃ is c', resolveDepsWith res D c = ResolveResult.ok is c' := by
  induction D with
  | nil => intro c; exact ⟨[], c, rfl⟩
  | cons d0 rest ih =>
    intro c
    have h0 := h d0 (List.mem_cons_self d0 rest) c
    cases h1 : res d0 c with
    | ok i c1 =>
      obtain ⟨is, c2, h2⟩ := ih (fun d hd => h d (List.mem_cons_of_mem d0 hd)) c1
      exact ⟨i :: is, c2, by simp [resolveDepsWith, h1, h2]⟩
    | err e => rw [h1] at h0; cases h0
    | diverge => rw [h1] at h0; cases h0

theorem transReg_resolvable {reg : Registry} {k : TypeKey}
    (h : TransitivelyRegistered reg k) :
    ∃ fuel, ∀ c, (resolveFuel reg fuel k c).shape = RShape.okS := by
  induction h with
  | simple h => exact ⟨0, fun c => by rw [resolveFuel_lookup_simple h]; rfl⟩
  | withDeps h hD ih =>
    rename_i k D
    obtain ⟨F, hF⟩ := exists_uniform_fuel reg D ih
    refine ⟨F + 1, fun c => ?_⟩
    obtain ⟨is, c', hok⟩ := resolveDepsWith_all_ok (resolveFuel reg F) D hF c
    rw [resolveFuel_lookup_withDeps_succ h, hok]
    rfl

theorem resolvable_iff_transReg (reg : Registry) (k : TypeKey) :
    Resolvable reg k ↔ TransitivelyRegistered reg k := by
  constructor
  · rintro ⟨fuel, hsh⟩
    cases heq : resolveFuel reg fuel k 0 with
    | ok i c' => exact resolveFuel_ok_transReg fuel reg k 0 i c' heq
    | err e => rw [heq] at hsh; cases hsh
    | diverge => rw [heq] at hsh; cases hsh
  · intro h
    obtain ⟨fuel, hf⟩ := transReg_resolvable h
    exact ⟨fuel, hf 0⟩

/-! ### Error propagation -/

theorem resolveDepsWith_err_elem (res : TypeKey → Nat → ResolveResult Instance) :
    ∀ (D : List TypeKey) (c : Nat) (e : DIError),
      resolveDepsWith res D c = ResolveResult.err e →
      ∃ d ∈ D, ∃ c1, res d c1 = ResolveResult.err e := by
  intro D
  induction D with
  | nil => intro c e heq; cases heq
  | cons d0 rest ih =>
    intro c e heq
    cases h1 : res d0 c with
    | ok i c1 =>
      cases h2 : resolveDepsWith res rest c1 with
      | ok is c2 => simp [resolveDepsWith, h1, h2] at heq
      | err e2 =>
        have he : e2 = e := by cases e2; cases e; rfl
        obtain ⟨d, hd, c3, h3⟩ := ih c1 e2 h2
        exact ⟨d, List.mem_cons_of_mem d0 hd, c3, he ▸ h3⟩
      | diverge => simp [resolveDepsWith, h1, h2] at heq
    | err e1 =>
      have he : e1 = e := by cases e1; cases e; rfl
      exact ⟨d0, List.mem_cons_self d0 rest, c, he ▸ h1⟩
    | diverge => simp [resolveDepsWith, h1] at heq

/-! ### The registered dependency graph -/

theorem resolveFuel_err_reachable_none :
    ∀ (fuel : Nat) (reg : Registry) (k : TypeKey) (c : Nat) (e : DIError),
      resolveFuel reg fuel k c = ResolveResult.err e →
      ∃ j, Reachable reg k j ∧ lookupFactory reg j = none := by
  intro fuel
  induction fuel with
  | zero =>
    intro reg k c e heq
    cases h : lookupFactory reg k with
    | none => exact ⟨k, Relation.ReflTransGen.refl, h⟩
    | some f =>
      cases f with
      | simple => rw [resolveFuel_lookup_simple h] at heq; cases heq
      | withDeps D => rw [resolveFuel_lookup_withDeps_zero h] at heq; cases heq
  | succ fuel ih =>
    intro reg k c e heq
    cases h : lookupFactory reg k with
    | none => exact ⟨k, Relation.ReflTransGen.refl, h⟩
    | some f =>
      cases f with
      | simple => rw [resolveFuel_lookup_simple h] at heq; cases heq
      | withDeps D =>
        rw [resolveFuel_lookup_withDeps_succ h] at heq
        cases h2 : resolveDepsWith (resolveFuel reg fuel) D c with
        | ok is c2 => rw [h2] at heq; cases heq
        | err e2 =>
          have he : e2 = e := by cases e2; cases e; rfl
          obtain ⟨d, hd, c3, h3⟩ :=
            resolveDepsWith_err_elem (resolveFuel reg fuel) D c e2 h2
          obtain ⟨j, hreach, hnone⟩ := ih reg d c3 e2 h3
          exact ⟨j, Relation.ReflTransGen.head ⟨D, h, hd⟩ hreach, hnone⟩
        | diverge => rw [h2] at heq; cases heq

/-! ### Accessibility, cycles, and termination -/

theorem transReg_depAcc {reg : Registry} {k : TypeKey}
    (h : TransitivelyRegistered reg k) : DepAcc reg k := by
  induction h with
  | simple h =>
    constructor
    intro y hy
    obtain ⟨D', hD', _⟩ := hy
    rw [h] at hD'
    cases hD'
  | withDeps h hD ih =>
    constructor
    intro y hy
    obtain ⟨D', hD', hyD⟩ := hy
    have hsome := hD'.symm.trans h
    have hDD := Factory.withDeps.inj (Option.some.inj hsome)
    exact ih y (hDD ▸ hyD)

theorem depAcc_of_reachable {reg : Registry} {a b : TypeKey}
    (ha : DepAcc reg a) (hr : Reachable reg a b) : DepAcc reg b := by
  induction hr with
  | refl => exact ha
  | tail _ hedge ih => exact ih.inv hedge

theorem acc_not_transGen_self {α : Type} {r : α → α → Prop} :
    ∀ {x : α}, Acc r x → ¬ Relation.TransGen r x x := by
  intro x hx
  induction hx with
  | intro x _ ih =>
    intro hcyc
    obtain ⟨y, hy, hr⟩ := Relation.TransGen.tail'_iff.mp hcyc
    exact ih y hr (Relation.TransGen.head' hr hy)

theorem lookupFactory_mem_keys {reg : Registry} {k : TypeKey} {f : Factory}
    (h : lookupFactory reg k = some f) : k ∈ reg.map Prod.fst := by
  induction reg with
  | nil => cases h
  | cons p rest ih =>
    obtain ⟨k0, f0⟩ := p
    by_cases hk : k = k0
    · subst hk; exact List.mem_cons_self _ _
    · rw [lookupFactory, if_neg hk] at h
      exact List.mem_cons_of_mem _ (ih h)

theorem not_depAcc_hasCycle {reg : Registry} {k : TypeKey}
    (h : ¬ DepAcc reg k) : HasCycleFrom reg k := by
  classical
  have hsucc : ∀ x : TypeKey, ¬ DepAcc reg x →
      ∃ y, DepEdge reg x y ∧ ¬ DepAcc reg y := by
    intro x hx
    by_contra hcon
    push_neg at hcon
    exact hx (Acc.intro x fun y hy => hcon y hy)
  have hstep : ∀ x : TypeKey, ∃ y,
      ¬ DepAcc reg x → DepEdge reg x y ∧ ¬ DepAcc reg y := by
    intro x
    by_cases hx : DepAcc reg x
    · exact ⟨x, fun hc => absurd hx hc⟩
    · obtain ⟨y, h1, h2⟩ := hsucc x hx
      exact ⟨y, fun _ => ⟨h1, h2⟩⟩
  choose F hF using hstep
  have hnot : ∀ n : Nat, ¬ DepAcc reg (F^[n] k) ∧ Reachable reg k (F^[n] k) := by
    intro n
    induction n with
    | zero => exact ⟨h, Relation.ReflTransGen.refl⟩
    | succ n ih =>
      have he := hF (F^[n] k) ih.1
      rw [Function.iterate_succ_apply']
      exact ⟨he.2, Relation.ReflTransGen.tail ih.2 he.1⟩
  have hedge : ∀ n : Nat, DepEdge reg (F^[n] k) (F^[n + 1] k) := by
    intro n
    rw [Function.iterate_succ_apply']
    exact (hF (F^[n] k) (hnot n).1).1
  have hmemS : ∀ n : Nat, F^[n] k ∈ (reg.map Prod.fst).toFinset := by
    intro n
    obtain ⟨D, hD, _⟩ := hedge n
    exact List.mem_toFinset.mpr (lookupFactory_mem_keys hD)
  obtain ⟨m, n, hmn, heq2⟩ := Finite.exists_ne_map_eq_of_infinite
    (fun n : Nat =>
      (⟨F^[n] k, hmemS n⟩ : {x : TypeKey // x ∈ (reg.map Prod.fst).toFinset}))
  have heq3 : F^[m] k = F^[n] k := congrArg Subtype.val heq2
  have hchain : ∀ i d : Nat,
      Relation.TransGen (DepEdge reg) (F^[i] k) (F^[i + d + 1] k) := by
    intro i d
    induction d with
    | zero => exact Relation.TransGen.single (hedge i)
    | succ d ih => exact Relation.TransGen.tail ih (hedge (i + d + 1))
  have key : ∀ a b : Nat, a < b → F^[a] k = F^[b] k → HasCycleFrom reg k := by
    intro a b hlt heq4
    obtain ⟨d, rfl⟩ : ∃ d, b = a + d + 1 := ⟨b - a - 1, by omega⟩
    have hc := hchain a d
    rw [← heq4] at hc
    exact ⟨F^[a] k, (hnot a).2, hc⟩
  rcases Nat.lt_or_ge m n with hlt | hge
  · exact key m n hlt heq3
  · exact key n m (by omega) heq3.symm

/-! ### Allocation identities -/

theorem resolveDepsWith_ok_bounds (res : TypeKey → Nat → ResolveResult Instance)
    (hres : ∀ d c i c', res d c = ResolveResult.ok i c' → c ≤ i.id ∧ i.id < c') :
    ∀ (D : List TypeKey) (c : Nat) (is : List Instance) (c' : Nat),
      resolveDepsWith res D c = ResolveResult.ok is c' →
      c ≤ c' ∧ ∀ i ∈ is, c ≤ i.id ∧ i.id < c' := by
  intro D
  induction D with
  | nil =>
    intro c is c' heq
    simp only [resolveDepsWith, ResolveResult.ok.injEq] at heq
    obtain ⟨rfl, rfl⟩ := heq
    exact ⟨Nat.le_refl c, fun i hi => absurd hi (List.not_mem_nil i)⟩
  | cons d0 rest ih =>
    intro c is c' heq
    cases h1 : res d0 c with
    | ok i c1 =>
      cases h2 : resolveDepsWith res rest c1 with
      | ok is2 c2 =>
        simp only [resolveDepsWith, h1, h2, ResolveResult.ok.injEq] at heq
        obtain ⟨rfl, rfl⟩ := heq
        obtain ⟨hd1, hd2⟩ := hres d0 c i c1 h1
        obtain ⟨hr1, hr2⟩ := ih c1 is2 c2 h2
        refine ⟨by omega, ?_⟩
        intro x hx
        rcases List.mem_cons.mp hx with rfl | hmem
        · exact ⟨hd1, by omega⟩
        · obtain ⟨hx1, hx2⟩ := hr2 x hmem
          exact ⟨by omega, hx2⟩
      | err e => simp [resolveDepsWith, h1, h2] at heq
      | diverge => simp [resolveDepsWith, h1, h2] at heq
    | err e => simp [resolveDepsWith, h1] at heq
    | diverge => simp [resolveDepsWith, h1] at heq

theorem resolveFuel_ok_bounds :
    ∀ (fuel : Nat) (reg : Registry) (k : TypeKey) (c : Nat) (i : Instance)
      (c' : Nat), resolveFuel reg fuel k c = ResolveResult.ok i c' →
      c ≤ i.id ∧ i.id < c' ∧ i.key = k := by
  intro fuel
  induction fuel with
  | zero =>
    intro reg k c i c' heq
    cases h : lookupFactory reg k with
    | none => rw [resolveFuel_lookup_none h] at heq; cases heq
    | some f =>
      cases f with
      | simple =>
        rw [resolveFuel_lookup_simple h] at heq
        simp only [ResolveResult.ok.injEq] at heq
        obtain ⟨rfl, rfl⟩ := heq
        exact ⟨Nat.le_refl c, Nat.lt_succ_self c, rfl⟩
      | withDeps D => rw [resolveFuel_lookup_withDeps_zero h] at heq; cases heq
  | succ fuel ih =>
    intro reg k c i c' heq
    cases h : lookupFactory reg k with
    | none => rw [resolveFuel_lookup_none h] at heq; cases heq
    | some f =>
      cases f with
      | simple =>
        rw [resolveFuel_lookup_simple h] at heq
        simp only [ResolveResult.ok.injEq] at heq
        obtain ⟨rfl, rfl⟩ := heq
        exact ⟨Nat.le_refl c, Nat.lt_succ_self c, rfl⟩
      | withDeps D =>
        rw [resolveFuel_lookup_withDeps_succ h] at heq
        cases h2 : resolveDepsWith (resolveFuel reg fuel) D c with
        | ok is c1 =>
          rw [h2] at heq
          simp only [ResolveResult.ok.injEq] at heq
          obtain ⟨rfl, rfl⟩ := heq
          have hb := resolveDepsWith_ok_bounds (resolveFuel reg fuel)
            (fun d cc ii cc' hh =>
              ⟨(ih reg d cc ii cc' hh).1, (ih reg d cc ii cc' hh).2.1⟩)
            D c is c1 h2
          exact ⟨hb.1, Nat.lt_succ_self c1, rfl⟩
        | err e => rw [h2] at heq; cases heq
        | diverge => rw [h2] at heq; cases heq

theorem resolveDepsWith_ok_keys (res : TypeKey → Nat → ResolveResult Instance)
    (hkey : ∀ d c i c', res d c = ResolveResult.ok i c' → i.key = d) :
    ∀ (D : List TypeKey) (c : Nat) (is : List Instance) (c' : Nat),
      resolveDepsWith res D c = ResolveResult.ok is c' →
      is.map Instance.key = D := by
  intro D
  induction D with
  | nil =>
    intro c is c' heq
    simp only [resolveDepsWith, ResolveResult.ok.injEq] at heq
    obtain ⟨rfl, rfl⟩ := heq
    rfl
  | cons d0 rest ih =>
    intro c is c' heq
    cases h1 : res d0 c with
    | ok i c1 =>
      cases h2 : resolveDepsWith res rest c1 with
      | ok is2 c2 =>
        simp only [resolveDepsWith, h1, h2, ResolveResult.ok.injEq] at heq
        obtain ⟨rfl, rfl⟩ := heq
        rw [List.map_cons, hkey d0 c i c1 h1, ih c1 is2 c2 h2]
      | err e => simp [resolveDepsWith, h1, h2] at heq
      | diverge => simp [resolveDepsWith, h1, h2] at heq
    | err e => simp [resolveDepsWith, h1] at heq
    | diverge => simp [resolveDepsWith, h1] at heq

theorem resolveDepsWith_ok_pairwise (res : TypeKey → Nat → ResolveResult Instance)
    (hres : ∀ d c i c', res d c = ResolveResult.ok i c' → c ≤ i.id ∧ i.id < c') :
    ∀ (D : List TypeKey) (c : Nat) (is : List Instance) (c' : Nat),
      resolveDepsWith res D c = ResolveResult.ok is c' →
      List.Pairwise (fun a b => a.id < b.id) is := by
  intro D
  induction D with
  | nil =>
    intro c is c' heq
    simp only [resolveDepsWith, ResolveResult.ok.injEq] at heq
    obtain ⟨rfl, rfl⟩ := heq
    exact List.Pairwise.nil
  | cons d0 rest ih =>
    intro c is c' heq
    cases h1 : res d0 c with
    | ok i c1 =>
      cases h2 : resolveDepsWith res rest c1 with
      | ok is2 c2 =>
        simp only [resolveDepsWith, h1, h2, ResolveResult.ok.injEq] at heq
        obtain ⟨rfl, rfl⟩ := heq
        refine List.Pairwise.cons ?_ (ih c1 is2 c2 h2)
        intro b hb
        obtain ⟨hi1, hi2⟩ := hres d0 c i c1 h1
        obtain ⟨hb1, _⟩ :=
          (resolveDepsWith_ok_bounds res hres rest c1 is2 c2 h2).2 b hb
        omega
      | err e => simp [resolveDepsWith, h1, h2] at heq
      | diverge => simp [resolveDepsWith, h1, h2] at heq
    | err e => simp [resolveDepsWith, h1] at heq
    | diverge => simp [resolveDepsWith, h1] at heq

/-! ### Registries reachable by the container's public operations -/

theorem removeKey_sublist (reg : Registry) (k : TypeKey) :
    List.Sublist (removeKey reg k) reg := by
  induction reg with
  | nil => simp [removeKey]
  | cons p rest ih =>
    obtain ⟨k0, f0⟩ := p
    by_cases h : k = k0
    · rw [removeKey, if_pos h]
      exact List.Sublist.cons (k0, f0) ih
    · rw [removeKey, if_neg h]
      exact List.Sublist.cons₂ (k0, f0) ih

theorem not_mem_keys_removeKey (reg : Registry) (k : TypeKey) :
    k ∉ (removeKey reg k).map Prod.fst := by
  induction reg with
  | nil => simp [removeKey]
  | cons p rest ih =>
    obtain ⟨k0, f0⟩ := p
    by_cases h : k = k0
    · rw [removeKey, if_pos h]
      exact ih
    · rw [removeKey, if_neg h]
      simp only [List.map_cons, List.mem_cons]
      rintro (rfl | hmem)
      · exact h rfl
      · exact ih hmem

theorem insertFactory_keys_nodup (reg : Registry) (k : TypeKey) (f : Factory)
    (h : (reg.map Prod.fst).Nodup) :
    ((insertFactory reg k f).map Prod.fst).Nodup := by
  rw [insertFactory, List.map_cons]
  refine List.Nodup.cons (not_mem_keys_removeKey reg k) ?_
  exact List.Nodup.sublist (List.Sublist.map Prod.fst (removeKey_sublist reg k)) h

theorem built_keys_nodup {reg : Registry} (h : Built reg) :
    (reg.map Prod.fst).Nodup := by
  induction h with
  | empty => exact List.nodup_nil
  | simpleStep _ ih => exact insertFactory_keys_nodup _ _ _ ih
  | depsStep _ ih => exact insertFactory_keys_nodup _ _ _ ih

/-! ### The concrete program (`main` of the custom-DI variant) -/

/-! ### Further helper lemmas -/

theorem resolveFuel_ok_deps_keys {reg : Registry} {k : TypeKey}
    {D : List TypeKey} {fuel c : Nat} {i : Instance} {c' : Nat}
    (h : lookupFactory reg k = some (Factory.withDeps D))
    (hok : resolveFuel reg fuel k c = ResolveResult.ok i c') :
    i.deps.map Instance.key = D := by
  cases fuel with
  | zero => rw [resolveFuel_lookup_withDeps_zero h] at hok; cases hok
  | succ fuel =>
    rw [resolveFuel_lookup_withDeps_succ h] at hok
    cases h2 : resolveDepsWith (resolveFuel reg fuel) D c with
    | ok is c1 =>
      rw [h2] at hok
      simp only [ResolveResult.ok.injEq] at hok
      obtain ⟨rfl, rfl⟩ := hok
      exact resolveDepsWith_ok_keys (resolveFuel reg fuel)
        (fun d cc ii cc' hh => (resolveFuel_ok_bounds fuel reg d cc ii cc' hh).2.2)
        D c is c1 h2
    | err e => rw [h2] at hok; cases hok
    | diverge => rw [h2] at hok; cases hok

theorem resolveDepsWith_prefix_err
    (res : TypeKey → Nat → ResolveResult Instance) (d : TypeKey)
    (hd : ∀ c, res d c = ResolveResult.err DIError.unregisteredType) :
    ∀ (D1 D2 : List TypeKey),
      (∀ e ∈ D1, ∀ c, (res e c).shape = RShape.okS) →
      ∀ c, resolveDepsWith res (D1 ++ d :: D2) c =
        ResolveResult.err DIError.unregisteredType := by
  intro D1
  induction D1 with
  | nil =>
    intro D2 _ c
    simp [resolveDepsWith, hd c]
  | cons e rest ih =>
    intro D2 hpre c
    have he := hpre e (List.mem_cons_self e rest) c
    cases h1 : res e c with
    | ok i c1 =>
      have hrest := ih D2 (fun x hx => hpre x (List.mem_cons_of_mem e hx)) c1
      simp [resolveDepsWith, h1, hrest]
    | err e2 => rw [h1] at he; cases he
    | diverge => rw [h1] at he; cases he

theorem exists_uniform_fuel_nodiv (reg : Registry) :
    ∀ (D : List TypeKey),
      (∀ d ∈ D, ∃ fuel, ∀ c,
        (resolveFuel reg fuel d c).shape ≠ RShape.divergeS) →
      ∃ F, ∀ d ∈ D, ∀ c, (resolveFuel reg F d c).shape ≠ RShape.divergeS := by
  intro D
  induction D with
  | nil => intro _; exact ⟨0, fun d hd => absurd hd (List.not_mem_nil d)⟩
  | cons d0 rest ih =>
    intro h
    obtain ⟨f0, hf0⟩ := h d0 (List.mem_cons_self d0 rest)
    obtain ⟨F, hF⟩ := ih (fun d hd => h d (List.mem_cons_of_mem d0 hd))
    refine ⟨max f0 F, ?_⟩
    intro d hd c
    rcases List.mem_cons.mp hd with rfl | hmem
    · rw [resolveFuel_mono (Nat.le_max_left f0 F) reg d c (hf0 c)]
      exact hf0 c
    · rw [resolveFuel_mono (Nat.le_max_right f0 F) reg d c (hF d hmem c)]
      exact hF d hmem c

theorem resolveDepsWith_nodiv (res : TypeKey → Nat → ResolveResult Instance) :
    ∀ (D : List TypeKey),
      (∀ d ∈ D, ∀ c, (res d c).shape ≠ RShape.divergeS) →
      ∀ c, (resolveDepsWith res D c).shape ≠ RShape.divergeS := by
  intro D
  induction D with
  | nil => intro _ c h; cases h
  | cons d0 rest ih =>
    intro h c
    have h0 := h d0 (List.mem_cons_self d0 rest) c
    cases h1 : res d0 c with
    | ok i c1 =>
      have hrest := ih (fun d hd => h d (List.mem_cons_of_mem d0 hd)) c1
      cases h2 : resolveDepsWith res rest c1 with
      | ok is c2 => simp [resolveDepsWith, h1, h2, ResolveResult.shape]
      | err e => simp [resolveDepsWith, h1, h2, ResolveResult.shape]
      | diverge => rw [h2] at hrest; exact absurd rfl hrest
    | err e => simp [resolveDepsWith, h1, ResolveResult.shape]
    | diverge => rw [h1] at h0; exact absurd rfl h0

theorem depAcc_terminates {reg : Registry} {k : TypeKey} (hacc : DepAcc reg k) :
    ∃ fuel, ∀ c, (resolveFuel reg fuel k c).shape ≠ RShape.divergeS := by
  induction hacc with
  | intro x _ ih =>
    cases h : lookupFactory reg x with
    | none =>
      exact ⟨0, fun c => by rw [resolveFuel_lookup_none h]; intro hx; cases hx⟩
    | some f =>
      cases f with
      | simple =>
        exact ⟨0, fun c => by rw [resolveFuel_lookup_simple h]; intro hx; cases hx⟩
      | withDeps D =>
        obtain ⟨F, hF⟩ := exists_uniform_fuel_nodiv reg D
          (fun d hd => ih d ⟨D, h, hd⟩)
        refine ⟨F + 1, fun c => ?_⟩
        have hnd := resolveDepsWith_nodiv (resolveFuel reg F) D hF c
        rw [resolveFuel_lookup_withDeps_succ h]
        cases h2 : resolveDepsWith (resolveFuel reg F) D c with
        | ok is c1 => intro hx; cases hx
        | err e => intro hx; cases hx
        | diverge => rw [h2] at hnd; exact absurd rfl hnd

/-! ### The specified properties -/

/-- C2: for every type `T` with no factory registered under its key,
`resolve<T>()` always throws the UnregisteredType error — at every recursion
depth and allocation state — and never returns an instance handle. -/
theorem resolve_unregistered_always_err (reg : Registry) (T : TypeKey)
    (h : lookupFactory reg T = none) (fuel ctr : Nat) :
    resolveFuel reg fuel T ctr = ResolveResult.err DIError.unregisteredType :=
  resolveFuel_lookup_none h fuel ctr

theorem resolve_unregistered_always_err_witness :
    resolveFuel [] 5 (typeName CppType.controller) 0 =
      ResolveResult.err DIError.unregisteredType :=
  resolve_unregistered_always_err [] (typeName CppType.controller) rfl 5 0

/-- C8: for every type `T` registered via `registerType` (on top of any prior
registry), `resolve<T>()` succeeds at every recursion depth, returning a
handle to a newly constructed instance whose dynamic type is `T` (its key is
`T` and its identity is the next fresh allocation). -/
theorem resolve_after_registerSimple (reg : Registry) (T : TypeKey)
    (fuel ctr : Nat) :
    resolveFuel (registerType reg T) fuel T ctr =
      ResolveResult.ok ⟨T, ctr, []⟩ (ctr + 1) :=
  resolveFuel_lookup_simple (lookupFactory_insert_self reg T Factory.simple)
    fuel ctr

/-- C3: for a type `T` whose stored factory is the `registerType` closure,
two successive `resolve<T>()` calls each invoke the factory anew and return
instances with distinct identities: the container performs no singleton
caching. -/
theorem resolve_twice_distinct (reg : Registry) (T : TypeKey)
    (h : lookupFactory reg T = some Factory.simple) (fuel1 fuel2 ctr : Nat) :
    ∃ i1 c1 i2 c2,
      resolveFuel reg fuel1 T ctr = ResolveResult.ok i1 c1 ∧
      resolveFuel reg fuel2 T c1 = ResolveResult.ok i2 c2 ∧
      i1.id ≠ i2.id := by
  refine ⟨⟨T, ctr, []⟩, ctr + 1, ⟨T, ctr + 1, []⟩, ctr + 2,
    resolveFuel_lookup_simple h fuel1 ctr, resolveFuel_lookup_simple h fuel2
      (ctr + 1), ?_⟩
  simp

theorem resolve_twice_distinct_witness :
    ∃ i1 c1 i2 c2,
      resolveFuel (registerType [] (typeName CppType.logger)) 1
          (typeName CppType.logger) 0 = ResolveResult.ok i1 c1 ∧
      resolveFuel (registerType [] (typeName CppType.logger)) 1
          (typeName CppType.logger) c1 = ResolveResult.ok i2 c2 ∧
      i1.id ≠ i2.id :=
  resolve_twice_distinct (registerType [] (typeName CppType.logger))
    (typeName CppType.logger) rfl 1 1 0

/-- C4: the registry holds at most one factory per key on every registry the
public operations can build, and re-registration silently overwrites: after
`registerType<T>` then `registerTypeWithDependencies<T, D...>`, the stored
factory for `T` is the second one, and any successful `resolve<T>()` passes
instances of exactly the declared dependencies `D` to the constructor —
the behaviour of the second factory, not the first. -/
theorem registry_one_factory_per_key_last_wins (reg : Registry) (T : TypeKey)
    (D : List TypeKey) :
    (∀ r : Registry, Built r → (r.map Prod.fst).Nodup) ∧
    lookupFactory (registerTypeWithDependencies (registerType reg T) T D) T =
      some (Factory.withDeps D) ∧
    (∀ fuel ctr i c',
      resolveFuel (registerTypeWithDependencies (registerType reg T) T D)
          fuel T ctr = ResolveResult.ok i c' →
      i.deps.map Instance.key = D) := by
  refine ⟨fun r hr => built_keys_nodup hr,
    lookupFactory_insert_self _ T (Factory.withDeps D), ?_⟩
  intro fuel ctr i c' hok
  exact resolveFuel_ok_deps_keys
    (lookupFactory_insert_self _ T (Factory.withDeps D)) hok

theorem registry_one_factory_per_key_last_wins_witness :
    lookupFactory
      (registerTypeWithDependencies
        (registerType [] (typeName CppType.controller))
        (typeName CppType.controller) [typeName CppType.model])
      (typeName CppType.controller) =
      some (Factory.withDeps [typeName CppType.model]) :=
  (registry_one_factory_per_key_last_wins [] (typeName CppType.controller)
    [typeName CppType.model]).2.1

/-- C5: `registerTypeWithDependencies<T, D...>` always succeeds at
registration time, whatever the registration status of the dependencies: it
installs the `withDeps D` factory under `T`'s key, touches no other key, and
a missing dependency surfaces only later, when `resolve<T>()` invokes the
produced factory and the nested resolution throws UnregisteredType. -/
theorem registerWithDependencies_total_deferred (reg : Registry) (T : TypeKey)
    (D : List TypeKey) :
    lookupFactory (registerTypeWithDependencies reg T D) T =
      some (Factory.withDeps D) ∧
    (∀ k, k ≠ T → lookupFactory (registerTypeWithDependencies reg T D) k =
      lookupFactory reg k) ∧
    (∀ d rest, D = d :: rest →
      lookupFactory (registerTypeWithDependencies reg T D) d = none →
      ∀ fuel ctr,
        resolveFuel (registerTypeWithDependencies reg T D) (fuel + 1) T ctr =
          ResolveResult.err DIError.unregisteredType) := by
  refine ⟨lookupFactory_insert_self reg T (Factory.withDeps D),
    fun k hk => lookupFactory_insert_ne reg T (Factory.withDeps D) k hk, ?_⟩
  rintro d rest rfl hnone fuel ctr
  have hsel : lookupFactory (registerTypeWithDependencies reg T (d :: rest)) T
      = some (Factory.withDeps (d :: rest)) :=
    lookupFactory_insert_self reg T (Factory.withDeps (d :: rest))
  rw [resolveFuel_lookup_withDeps_succ hsel]
  simp [resolveDepsWith, resolveFuel_lookup_none hnone]

theorem registerWithDependencies_total_deferred_witness :
    resolveFuel
      (registerTypeWithDependencies [] (typeName CppType.controller)
        [typeName CppType.logger]) 1 (typeName CppType.controller) 0 =
      ResolveResult.err DIError.unregisteredType :=
  (registerWithDependencies_total_deferred [] (typeName CppType.controller)
    [typeName CppType.logger]).2.2 (typeName CppType.logger) [] rfl rfl 0 0

/-- C9: the key function `typeid(T).name()` is one fixed string per program
type and distinct strings for distinct types (injective), so a registration
under one type's key is invisible to lookups — and hence to `resolve` —
for every other type. -/
theorem typeKey_injective_no_cross_resolution :
    Function.Injective typeName ∧
    (∀ (reg : Registry) (S T : CppType) (f : Factory), S ≠ T →
      lookupFactory (insertFactory reg (typeName S) f) (typeName T) =
        lookupFactory reg (typeName T)) := by
  have hinj : Function.Injective typeName := by decide
  refine ⟨hinj, ?_⟩
  intro reg S T f hne
  exact lookupFactory_insert_ne reg (typeName S) f (typeName T)
    (fun he => hne (hinj he).symm)

theorem typeKey_injective_no_cross_resolution_witness :
    lookupFactory
      (insertFactory [] (typeName CppType.logger) Factory.simple)
      (typeName CppType.model) =
      lookupFactory [] (typeName CppType.model) :=
  typeKey_injective_no_cross_resolution.2 [] CppType.logger CppType.model
    Factory.simple (by decide)

/-- C6: when the factory installed by `registerTypeWithDependencies` runs to
a successful resolution, the constructor of the resolved object receives
instances of exactly the declared dependencies, in declared order (the list
of their keys equals the declared list), each built by a nested resolve on
the same registry before the object itself: allocation identities grow
strictly left to right and all precede the object's own identity. -/
theorem factory_resolves_deps_in_order (reg : Registry) (T : TypeKey)
    (D : List TypeKey) (fuel ctr : Nat) (i : Instance) (c' : Nat)
    (h : lookupFactory reg T = some (Factory.withDeps D))
    (hok : resolveFuel reg fuel T ctr = ResolveResult.ok i c') :
    i.deps.map Instance.key = D ∧
    List.Pairwise (fun a b => a.id < b.id) i.deps ∧
    (∀ d ∈ i.deps, ctr ≤ d.id ∧ d.id < i.id) := by
  cases fuel with
  | zero => rw [resolveFuel_lookup_withDeps_zero h] at hok; cases hok
  | succ fuel =>
    rw [resolveFuel_lookup_withDeps_succ h] at hok
    cases h2 : resolveDepsWith (resolveFuel reg fuel) D ctr with
    | ok is c1 =>
      rw [h2] at hok
      simp only [ResolveResult.ok.injEq] at hok
      obtain ⟨rfl, rfl⟩ := hok
      have hbounds : ∀ d cc ii cc',
          resolveFuel reg fuel d cc = ResolveResult.ok ii cc' →
          cc ≤ ii.id ∧ ii.id < cc' :=
        fun d cc ii cc' hh => ⟨(resolveFuel_ok_bounds fuel reg d cc ii cc' hh).1,
          (resolveFuel_ok_bounds fuel reg d cc ii cc' hh).2.1⟩
      refine ⟨resolveDepsWith_ok_keys (resolveFuel reg fuel)
          (fun d cc ii cc' hh =>
            (resolveFuel_ok_bounds fuel reg d cc ii cc' hh).2.2)
          D ctr is c1 h2,
        resolveDepsWith_ok_pairwise (resolveFuel reg fuel) hbounds
          D ctr is c1 h2, ?_⟩
      intro d hd
      exact (resolveDepsWith_ok_bounds (resolveFuel reg fuel) hbounds
        D ctr is c1 h2).2 d hd
    | err e => rw [h2] at hok; cases hok
    | diverge => rw [h2] at hok; cases hok

theorem factory_resolves_deps_in_order_witness :
    mainControllerInstance.deps.map Instance.key =
      [typeName CppType.model, typeName CppType.view,
       typeName CppType.logger] ∧
    List.Pairwise (fun a b => a.id < b.id) mainControllerInstance.deps ∧
    (∀ d ∈ mainControllerInstance.deps,
      4 ≤ d.id ∧ d.id < mainControllerInstance.id) :=
  factory_resolves_deps_in_order mainRegistry (typeName CppType.controller)
    [typeName CppType.model, typeName CppType.view, typeName CppType.logger]
    2 4 mainControllerInstance 8 rfl rfl

/-- C1: for a type `T` registered with dependency list `D`, resolution of
`T` succeeds exactly when every declared dependency is directly or
transitively registered; and when some dependency `d` is unregistered (the
declared list splitting as `D1 ++ d :: D2` with the dependencies before `d`
resolvable), the nested resolution of `d` throws UnregisteredType and
`resolve<T>()` fails with that same error, surfaced from the nested call. -/
theorem resolve_withDeps_success_iff_unregistered_error (reg : Registry)
    (T : TypeKey) (D : List TypeKey)
    (h : lookupFactory reg T = some (Factory.withDeps D)) :
    (Resolvable reg T ↔ ∀ d ∈ D, TransitivelyRegistered reg d) ∧
    (∀ D1 d D2, D = D1 ++ d :: D2 → lookupFactory reg d = none →
      (∀ e ∈ D1, Resolvable reg e) →
      (∀ fuel ctr, resolveFuel reg fuel d ctr =
        ResolveResult.err DIError.unregisteredType) ∧
      ∃ fuel, resolveFuel reg fuel T 0 =
        ResolveResult.err DIError.unregisteredType) := by
  constructor
  · constructor
    · intro hres
      have htr := (resolvable_iff_transReg reg T).mp hres
      cases htr with
      | simple h2 =>
        have hcontra := h2.symm.trans h
        simp at hcontra
      | withDeps h2 hD =>
        have hsome := h2.symm.trans h
        have hDD := Factory.withDeps.inj (Option.some.inj hsome)
        exact hDD ▸ hD
    · intro hD
      exact (resolvable_iff_transReg reg T).mpr
        (TransitivelyRegistered.withDeps h hD)
  · rintro D1 d D2 rfl hnone hpre
    refine ⟨fun fuel ctr => resolveFuel_lookup_none hnone fuel ctr, ?_⟩
    have hpre2 : ∀ e ∈ D1, ∃ fuel, ∀ c,
        (resolveFuel reg fuel e c).shape = RShape.okS :=
      fun e he => transReg_resolvable
        ((resolvable_iff_transReg reg e).mp (hpre e he))
    obtain ⟨F, hF⟩ := exists_uniform_fuel reg D1 hpre2
    refine ⟨F + 1, ?_⟩
    rw [resolveFuel_lookup_withDeps_succ h,
      resolveDepsWith_prefix_err (resolveFuel reg F) d
        (fun c => resolveFuel_lookup_none hnone F c) D1 D2 hF 0]

theorem resolve_withDeps_success_iff_unregistered_error_witness :
    ∃ fuel, resolveFuel missingLoggerRegistry fuel
      (typeName CppType.controller) 0 =
      ResolveResult.err DIError.unregisteredType := by
  have hpre : ∀ e ∈ [typeName CppType.model, typeName CppType.view],
      Resolvable missingLoggerRegistry e := by
    intro e he
    rcases List.mem_cons.mp he with rfl | he2
    · exact ⟨1, rfl⟩
    · rcases List.mem_cons.mp he2 with rfl | he3
      · exact ⟨1, rfl⟩
      · cases he3
  exact ((resolve_withDeps_success_iff_unregistered_error missingLoggerRegistry
    (typeName CppType.controller)
    [typeName CppType.model, typeName CppType.view, typeName CppType.logger]
    rfl).2 [typeName CppType.model, typeName CppType.view]
    (typeName CppType.logger) [] rfl rfl hpre).2

/-- C7: the recursive expansion of `resolve` terminates whenever the
registered dependency graph reachable from the resolved type has no cycle;
and when a cycle among registered types is reachable (every type reachable
from the start being registered, so that no UnregisteredType throw can cut
the run short), the resolution exhausts every recursion depth — the
unbounded recursion of the C++ original — instead of failing with a defined
error. -/
theorem resolve_terminates_iff_cycles (reg : Registry) (k : TypeKey) :
    (¬ HasCycleFrom reg k →
      ∃ fuel, (resolveFuel reg fuel k 0).shape ≠ RShape.divergeS) ∧
    (HasCycleFrom reg k →
      (∀ j, Reachable reg k j → lookupFactory reg j ≠ none) →
      ∀ fuel ctr, resolveFuel reg fuel k ctr = ResolveResult.diverge) := by
  constructor
  · intro hnc
    have hacc : DepAcc reg k := by
      by_contra hna
      exact hnc (not_depAcc_hasCycle hna)
    obtain ⟨fuel, hf⟩ := depAcc_terminates hacc
    exact ⟨fuel, hf 0⟩
  · rintro ⟨c, hreach, hcyc⟩ hreg fuel ctr
    cases heq : resolveFuel reg fuel k ctr with
    | ok i c' =>
      exfalso
      have htr := resolveFuel_ok_transReg fuel reg k ctr i c' heq
      have haccc := depAcc_of_reachable (transReg_depAcc htr) hreach
      exact acc_not_transGen_self haccc hcyc.swap
    | err e =>
      exfalso
      obtain ⟨j, hjreach, hjnone⟩ :=
        resolveFuel_err_reachable_none fuel reg k ctr e heq
      exact hreg j hjreach hjnone
    | diverge => rfl

theorem resolve_terminates_iff_cycles_witness :
    resolveFuel selfLoopRegistry 3 "A" 0 = ResolveResult.diverge := by
  have hcyc : HasCycleFrom selfLoopRegistry "A" :=
    ⟨"A", Relation.ReflTransGen.refl,
      Relation.TransGen.single ⟨["A"], rfl, List.mem_cons_self "A" []⟩⟩
  have hreg : ∀ j, Reachable selfLoopRegistry "A" j →
      lookupFactory selfLoopRegistry j ≠ none := by
    intro j hr
    have hj : j = "A" := by
      induction hr with
      | refl => rfl
      | tail hr2 he ih =>
        obtain ⟨D, hD, hjD⟩ := he
        rw [ih] at hD
        have hsome : some (Factory.withDeps D) =
            some (Factory.withDeps ["A"]) := hD.symm.trans rfl
        have hDA := Factory.withDeps.inj (Option.some.inj hsome)
        exact List.mem_singleton.mp (hDA ▸ hjD)
    rw [hj]
    decide
  exact (resolve_terminates_iff_cycles selfLoopRegistry "A").2 hcyc hreg 3 0

/-- C10: the run of `main` — resolving Configuration, Logger, Model and View
directly, then resolving Controller — embeds fresh Model, View and Logger
instances inside the Controller: each dependency held by the resolved
Controller is distinct, by object identity, from every instance the earlier
direct resolve calls returned. -/
theorem main_controller_deps_are_fresh :
    ∃ (cfg logger model view ctl : Instance) (c1 c2 c3 c4 c5 : Nat),
      resolveFuel mainRegistry 2 (typeName CppType.configuration) 0 =
        ResolveResult.ok cfg c1 ∧
      resolveFuel mainRegistry 2 (typeName CppType.logger) c1 =
        ResolveResult.ok logger c2 ∧
      resolveFuel mainRegistry 2 (typeName CppType.model) c2 =
        ResolveResult.ok model c3 ∧
      resolveFuel mainRegistry 2 (typeName CppType.view) c3 =
        ResolveResult.ok view c4 ∧
      resolveFuel mainRegistry 2 (typeName CppType.controller) c4 =
        ResolveResult.ok ctl c5 ∧
      ctl.deps.map Instance.key =
        [typeName CppType.model, typeName CppType.view,
         typeName CppType.logger] ∧
      (∀ d ∈ ctl.deps,
        d.id ≠ model.id ∧ d.id ≠ view.id ∧ d.id ≠ logger.id) := by
  refine ⟨⟨typeName CppType.configuration, 0, []⟩,
    ⟨typeName CppType.logger, 1, []⟩, ⟨typeName CppType.model, 2, []⟩,
    ⟨typeName CppType.view, 3, []⟩, mainControllerInstance,
    1, 2, 3, 4, 8, rfl, rfl, rfl, rfl, rfl, rfl, ?_⟩
  intro d hd
  rcases List.mem_cons.mp hd with rfl | hd2
  · exact ⟨by decide, by decide, by decide⟩
  rcases List.mem_cons.mp hd2 with rfl | hd3
  · exact ⟨by decide, by decide, by decide⟩
  rcases List.mem_cons.mp hd3 with rfl | hd4
  · exact ⟨by decide, by decide, by decide⟩
  cases hd4

end DI
